import Mathlib

/-! Verification of the card-world infinite-canvas note board.

This file gives a shallow embedding of the programs core components —
the viewport engine (`World` in cards.js), the snap resolver
(`CardManager.applySnapping`), the multi-drag engine, the history
manager (`UndoRedoManager` in undoredo.js) and the storage import path
(`Storage.importData` in storage.js) — and proves the specification
claims about them.  JavaScript numbers are modelled as rationals (exact
arithmetic); `Map` and `Set` iteration order is modelled by
insertion-ordered lists; DOM side effects (element styling, snap
indicator elements, the sidebar) are outside the model. -/

namespace CardWorld

/-- Height of a card: the sentinel `auto` (sized by the renderer) or a
concrete pixel value; cards.js tests whether `height` equals the string `auto`. -/
inductive HeightVal where
  | auto : HeightVal
  | px : ℚ → HeightVal
deriving DecidableEq

/-- A card record: exactly the six fields captured and restored by the
history manager (`captureCurrentState`, undoredo.js 124-144). -/
structure Card where
  id : ℕ
  x : ℚ
  y : ℚ
  width : ℚ
  height : HeightVal
  content : String
deriving DecidableEq

/-- The card store of `CardManager` (cards.js): the `cards` map is an
insertion-ordered list of records with unique ids, `selectedCards` an
insertion-ordered list of ids, plus the active id and the next-id
counter. -/
structure Board where
  cards : List Card
  nextId : ℕ
  selectedCards : List ℕ
  activeCard : Option ℕ
deriving DecidableEq

/-- Card lookup by id, JS `this.cards.get(id)`. -/
def Board.findCard (b : Board) (i : ℕ) : Option Card :=
  b.cards.find? (fun c => c.id == i)

/-- Membership test for a card id, JS `this.cards.has(id)`. -/
def Board.hasCard (b : Board) (i : ℕ) : Bool :=
  b.cards.any (fun c => c.id == i)

/-- Position of a card on a board, when present. -/
def Board.posOf (b : Board) (i : ℕ) : Option (ℚ × ℚ) :=
  (b.findCard i).map (fun c => (c.x, c.y))

/-! Viewport engine (`World`, cards.js 708-904). -/

/-- Viewport state of `World`: current translate and scale plus the
animation targets (cards.js 714-727). -/
structure WorldView where
  translateX : ℚ
  translateY : ℚ
  scale : ℚ
  targetTX : ℚ
  targetTY : ℚ
  targetScale : ℚ
deriving DecidableEq

def MIN_SCALE : ℚ := 1/10

def MAX_SCALE : ℚ := 2

def DAMPING : ℚ := 1/5

/-- `World.screenToWorld` (cards.js 876-880) as a function of an
explicit transform. -/
def screenToWorld (translateX translateY scale : ℚ) (sx sy : ℚ) : ℚ × ℚ :=
  ((sx - translateX) / scale, (sy - translateY) / scale)

/-- The wheel-zoom handler in `World.setupEventListeners` (cards.js
781-810).  The raw wheel delta enters only through
`zoom = Math.exp(-deltaY * ZOOM_SENSITIVITY)`, which is always a
positive factor; the embedding takes this positive factor as the
`zoom` argument. -/
def wheelZoom (w : WorldView) (mouseX mouseY zoom : ℚ) : WorldView :=
  let worldX := mouseX - w.targetTX
  let worldY := mouseY - w.targetTY
  let newTargetScale := min MAX_SCALE (max MIN_SCALE (w.targetScale * zoom))
  let scaleFactor := newTargetScale / w.targetScale
  { w with
      targetTX := mouseX - worldX * scaleFactor
      targetTY := mouseY - worldY * scaleFactor
      targetScale := newTargetScale }

/-- One tick of `World.animate` (cards.js 848-867): current translate
and scale move a fixed fraction of the remaining distance toward the
targets. -/
def animateStep (w : WorldView) : WorldView :=
  { w with
      translateX := w.translateX + (w.targetTX - w.translateX) * DAMPING
      translateY := w.translateY + (w.targetTY - w.translateY) * DAMPING
      scale := w.scale + (w.targetScale - w.scale) * DAMPING }

/-- A persisted world-state record (storage.js `getWorldState`): every
field may be absent (`undefined` when read back from a foreign
document), modelled with `Option`. -/
structure WorldStateRec where
  translateX : Option ℚ
  translateY : Option ℚ
  scale : Option ℚ
  targetTX : Option ℚ
  targetTY : Option ℚ
  targetScale : Option ℚ
deriving DecidableEq

/-- JavaScript `a || b` for an optional numeric `a`: yields `b` when `a`
is `undefined` or `0` (the falsy numbers in this model), otherwise `a`. -/
def jsOr (a : Option ℚ) (b : ℚ) : ℚ :=
  match a with
  | none => b
  | some v => if v = 0 then b else v

/-- `Storage.applyWorldState` (storage.js 81-98): each present field is
copied verbatim onto the world, the target falling back to the current
value via `||`.  No clamping is performed. -/
def applyWorldState (w : WorldView) (ws : WorldStateRec) : WorldView :=
  let w1 := match ws.translateX with
    | some tx => { w with translateX := tx, targetTX := jsOr ws.targetTX tx }
    | none => w
  let w2 := match ws.translateY with
    | some ty => { w1 with translateY := ty, targetTY := jsOr ws.targetTY ty }
    | none => w1
  match ws.scale with
  | some s => { w2 with scale := s, targetScale := jsOr ws.targetScale s }
  | none => w2

/-! Snap resolver (`CardManager.applySnapping`, cards.js 549-620). -/

/-- A rectangle with its height already resolved to a number.  The
caller resolves `auto` heights through a DOM measurement before the
candidates are formed (cards.js 562-577); per the claim, the resolver
is modelled on resolved heights. -/
structure Rect where
  x : ℚ
  y : ℚ
  width : ℚ
  height : ℚ
deriving DecidableEq

def SNAP_DISTANCE : ℚ := 5

/-- One edge-alignment candidate: the moving edge coordinate and the
stationary edge coordinate.  In all four candidates of the source the
drawn snap line equals the stationary edge (`snapLine = targetPos`). -/
structure Alignment where
  draggedPos : ℚ
  targetPos : ℚ
deriving DecidableEq

/-- Absolute distance of an alignment candidate (cards.js 588). -/
def Alignment.dist (a : Alignment) : ℚ := |a.draggedPos - a.targetPos|

/-- A candidate qualifies when its distance is strictly below the snap
threshold. -/
def qualifies (a : Alignment) : Bool := a.dist < SNAP_DISTANCE

/-- The four X-axis candidates, in source order (cards.js 580-585):
left-left, left-right, right-left, right-right. -/
def xAlignments (x : ℚ) (dragged target : Rect) : List Alignment :=
  [⟨x, target.x⟩, ⟨x, target.x + target.width⟩,
   ⟨x + dragged.width, target.x⟩, ⟨x + dragged.width, target.x + target.width⟩]

/-- The four Y-axis candidates, in source order (cards.js 597-602):
top-top, top-bottom, bottom-top, bottom-bottom. -/
def yAlignments (y : ℚ) (dragged target : Rect) : List Alignment :=
  [⟨y, target.y⟩, ⟨y, target.y + target.height⟩,
   ⟨y + dragged.height, target.y⟩, ⟨y + dragged.height, target.y + target.height⟩]

/-- Per-axis fold state: minimum distance seen so far, snapped
coordinate, active snap line. -/
structure AxisState where
  minDist : ℚ
  snapped : ℚ
  snapLine : Option ℚ
deriving DecidableEq

/-- The body of the per-candidate `forEach` (cards.js 587-594): a
candidate wins only if its distance is strictly below both the snap
threshold and the minimum seen so far. -/
def snapStep (pos : ℚ) (st : AxisState) (a : Alignment) : AxisState :=
  if a.dist < SNAP_DISTANCE ∧ a.dist < st.minDist then
    ⟨a.dist, pos + (a.targetPos - a.draggedPos), some a.targetPos⟩
  else st

structure SnapResult where
  x : ℚ
  y : ℚ
  snapLineX : Option ℚ
  snapLineY : Option ℚ
deriving DecidableEq

/-- `CardManager.applySnapping` (cards.js 549-620): both axes start
with minimum distance `SNAP_DISTANCE + 1` and the unmodified input
coordinate, then every stationary rectangle contributes its four
candidates per axis in source order.  `others` is the iteration of
`this.cards` minus `excludeCards`, with heights resolved. -/
def applySnapping (x y : ℚ) (dragged : Rect) (others : List Rect) : SnapResult :=
  let final := others.foldl
    (fun (st : AxisState × AxisState) target =>
      ((xAlignments x dragged target).foldl (snapStep x) st.1,
       (yAlignments y dragged target).foldl (snapStep y) st.2))
    (⟨SNAP_DISTANCE + 1, x, none⟩, ⟨SNAP_DISTANCE + 1, y, none⟩)
  ⟨final.1.snapped, final.2.snapped, final.1.snapLine, final.2.snapLine⟩

/-- All X-axis candidates of a drag position, in iteration order. -/
def xCandidates (x : ℚ) (dragged : Rect) (others : List Rect) : List Alignment :=
  others.bind (xAlignments x dragged)

/-- All Y-axis candidates of a drag position, in iteration order. -/
def yCandidates (y : ℚ) (dragged : Rect) (others : List Rect) : List Alignment :=
  others.bind (yAlignments y dragged)

/-! Multi-card drag (`CardManager.startDragging` and
`CardManager.updateCardDrag`, cards.js 379-514). -/

/-- One entry of `multiDragOffsets` (cards.js 406-409): the world-space
offset between the pointer and the top-left corner of one dragged card
at drag start. -/
structure DragOffset where
  cardId : ℕ
  ox : ℚ
  oy : ℚ
deriving DecidableEq

/-- `startDragging` over a selected group (cards.js 399-416): one
offset entry per selected card, measured from the pointer world
position at drag start. -/
def startDragOffsets (mouseStartX mouseStartY : ℚ) (selected : List Card) :
    List DragOffset :=
  selected.map (fun c => ⟨c.id, mouseStartX - c.x, mouseStartY - c.y⟩)

/-- The multi-card branch of `updateCardDrag` (cards.js 450-488): the
unsnapped target of the reference (clicked) card is snap-resolved
against the non-dragged cards, and the resulting correction delta is
added uniformly to the unsnapped target of every dragged card.  Returns the
new `(id, x, y)` of every dragged card. -/
def updateMultiDrag (mouseX mouseY : ℚ) (offsets : List DragOffset)
    (refOff : DragOffset) (refRect : Rect) (others : List Rect) :
    List (ℕ × ℚ × ℚ) :=
  let newX := mouseX - refOff.ox
  let newY := mouseY - refOff.oy
  let snapped := applySnapping newX newY refRect others
  let deltaX := snapped.x - newX
  let deltaY := snapped.y - newY
  offsets.map (fun off => (off.cardId, mouseX - off.ox + deltaX, mouseY - off.oy + deltaY))

/-- Two sample cards used by concrete witnesses. -/
def wCards : List Card :=
  [⟨1, 0, 0, 300, HeightVal.px 150, "a"⟩, ⟨2, 400, 50, 300, HeightVal.px 150, "b"⟩]

/-! History manager (`UndoRedoManager`, undoredo.js). -/

/-- A whole-board snapshot captured by `captureCurrentState`
(undoredo.js 124-144): the six fields of every card, the selected-id list
and the active id.  The snapshot stores its card copies keyed by id;
the claims are stated per id, so the object key-iteration order is
immaterial and the copies are kept in card-store order. -/
structure Snapshot where
  cards : List Card
  selectedCards : List ℕ
  activeCard : Option ℕ
deriving DecidableEq

/-- `captureCurrentState` (undoredo.js 124-144): a deep copy of the
card map (the per-card copy lists exactly the six `Card` fields), the
selection and the active id. -/
def captureCurrentState (b : Board) : Snapshot :=
  ⟨b.cards.map (fun c => ⟨c.id, c.x, c.y, c.width, c.height, c.content⟩),
   b.selectedCards, b.activeCard⟩

/-- A history entry (undoredo.js 28-33).  The wall-clock `timestamp`
and the display-only `data` payload are omitted: no claim reads them,
and replay always uses `state`. -/
structure HistoryEntry where
  operation : String
  state : Snapshot
deriving DecidableEq

/-- `pendingDragOperation` (undoredo.js 57-62), timestamp omitted as
above.  The id-keyed `startPositions` object is an association list. -/
structure PendingDrag where
  operation : String
  cardIds : List ℕ
  startPositions : List (ℕ × ℚ × ℚ)
deriving DecidableEq

/-- `UndoRedoManager` state (undoredo.js 3-15).  The content-change
debounce timer is wall-clock machinery read by no claim and is
omitted. -/
structure UndoRedoManager where
  history : List HistoryEntry
  currentIndex : ℤ
  maxHistorySize : ℕ
  isPerformingUndoRedo : Bool
  pendingDragOperation : Option PendingDrag
deriving DecidableEq

/-- A freshly constructed manager (undoredo.js 3-15). -/
def freshManager : UndoRedoManager := ⟨[], -1, 50, false, none⟩

/-- `saveState` (undoredo.js 18-51), with the board passed explicitly
in place of the global card-manager read: no-op while restoring;
otherwise truncates any future entries past the current index, appends
the new entry, and evicts the oldest entry when the cap is exceeded,
shifting the index down by one. -/
def saveState (m : UndoRedoManager) (b : Board) (op : String) : UndoRedoManager :=
  if m.isPerformingUndoRedo then m
  else
    let entry : HistoryEntry := ⟨op, captureCurrentState b⟩
    let hist0 :=
      if m.currentIndex < (m.history.length : ℤ) - 1 then
        m.history.take (m.currentIndex + 1).toNat
      else m.history
    let hist1 := hist0 ++ [entry]
    let idx1 := m.currentIndex + 1
    if hist1.length > m.maxHistorySize then
      { m with history := hist1.drop 1, currentIndex := idx1 - 1 }
    else
      { m with history := hist1, currentIndex := idx1 }

/-- `canUndo` (undoredo.js 240-242). -/
def UndoRedoManager.canUndo (m : UndoRedoManager) : Bool :=
  m.currentIndex > 0

/-- `canRedo` (undoredo.js 245-247). -/
def UndoRedoManager.canRedo (m : UndoRedoManager) : Bool :=
  m.currentIndex < (m.history.length : ℤ) - 1

/-- `createCard` (cards.js 146-169) as invoked from `applyState` and
`loadCards`, where the supplied record always carries all six fields
with a positive id, so the field defaulting and the fresh-id branch are
not exercised.  The card is appended (`Map.set` with a fresh key in a
map cleared beforehand) and `nextId` advances past its id. -/
def createCardData (b : Board) (c : Card) : Board :=
  { b with
      cards := b.cards ++ [c]
      nextId := if c.id ≥ b.nextId then c.id + 1 else b.nextId }

/-- `applyState` (undoredo.js 147-205): clears cards and selection,
recreates every snapshot card preserving ids, restores the selection
list, and restores the active id only if it still exists in the
recreated set, else none.  DOM and sidebar side effects are outside
the model; the restoring-flag bracketing is modelled at the call sites
(`undo` and `redo`). -/
def applyState (b : Board) (s : Snapshot) : Board :=
  let cleared : Board := { b with cards := [], selectedCards := [] }
  let recreated := s.cards.foldl createCardData cleared
  let selected : Board := { recreated with selectedCards := s.selectedCards }
  match s.activeCard with
  | some a =>
      if selected.hasCard a then { selected with activeCard := some a }
      else { selected with activeCard := none }
  | none => { selected with activeCard := none }

/-- Default entry for the out-of-range history read, unreachable when
the index invariant holds. -/
def defaultEntry : HistoryEntry := ⟨"", ⟨[], [], none⟩⟩

/-- `undo` (undoredo.js 208-221): fails returning `false` when
`canUndo` is false, changing nothing; otherwise decrements the index
and applies the snapshot of that entry.  The restoring flag is set by
`applyState` and cleared in its `finally`, so it is false on return. -/
def undo (m : UndoRedoManager) (b : Board) : UndoRedoManager × Board × Bool :=
  if m.canUndo then
    let m1 := { m with currentIndex := m.currentIndex - 1, isPerformingUndoRedo := false }
    let e := m1.history.getD m1.currentIndex.toNat defaultEntry
    (m1, applyState b e.state, true)
  else (m, b, false)

/-- `redo` (undoredo.js 224-237): fails returning `false` when
`canRedo` is false; otherwise increments the index and applies that
snapshot of that entry. -/
def redo (m : UndoRedoManager) (b : Board) : UndoRedoManager × Board × Bool :=
  if m.canRedo then
    let m1 := { m with currentIndex := m.currentIndex + 1, isPerformingUndoRedo := false }
    let e := m1.history.getD m1.currentIndex.toNat defaultEntry
    (m1, applyState b e.state, true)
  else (m, b, false)

/-- `clearHistory` (undoredo.js 262-271). -/
def clearHistory (m : UndoRedoManager) : UndoRedoManager :=
  { m with history := [], currentIndex := -1, pendingDragOperation := none }

/-- `initialize` of the manager (undoredo.js 274-277): records one
`initial_state` entry. -/
def initHistory (m : UndoRedoManager) (b : Board) : UndoRedoManager :=
  saveState m b "initial_state"

/-- `saveDragState` (undoredo.js 54-63): records the pending drag
without writing history; no-op while restoring. -/
def saveDragState (m : UndoRedoManager) (op : String) (cardIds : List ℕ)
    (startPositions : List (ℕ × ℚ × ℚ)) : UndoRedoManager :=
  if m.isPerformingUndoRedo then m
  else { m with pendingDragOperation := some ⟨op, cardIds, startPositions⟩ }

/-- Position lookup in an id-keyed association list (JS object access
`obj[id]`, `undefined` when absent). -/
def lookupPos (ps : List (ℕ × ℚ × ℚ)) (i : ℕ) : Option (ℚ × ℚ) :=
  (ps.find? (fun p => p.1 == i)).map (fun p => p.2)

/-- `finishDragOperation` (undoredo.js 66-98): reads the final
positions of the pending cards from the live board, saves one state
with the pending operation tag only if some position changed, and
clears the pending drag. -/
def finishDragOperation (m : UndoRedoManager) (b : Board) : UndoRedoManager :=
  match m.pendingDragOperation with
  | some p =>
      if m.isPerformingUndoRedo then m
      else
        let finalPositions : List (ℕ × ℚ × ℚ) :=
          p.cardIds.filterMap (fun i => (b.findCard i).map (fun c => (i, c.x, c.y)))
        let hasChanged := p.cardIds.any (fun i =>
          match lookupPos p.startPositions i, lookupPos finalPositions i with
          | some s, some f => decide (s.1 ≠ f.1 ∨ s.2 ≠ f.2)
          | _, _ => false)
        let m1 := if hasChanged then saveState m b p.operation else m
        { m1 with pendingDragOperation := none }
  | none => m

/-- Start positions recorded at drag start (cards.js 397-404): one
entry per dragged card present in the store. -/
def startPositionsOf (b : Board) (cardIds : List ℕ) : List (ℕ × ℚ × ℚ) :=
  cardIds.filterMap (fun i => (b.findCard i).map (fun c => (i, c.x, c.y)))

/-- The operation tag chosen in `startDragging` (cards.js 420):
`multi_card_move` for a group, `card_move` for a single card. -/
def dragOpTag (cardIds : List ℕ) : String :=
  if cardIds.length > 1 then "multi_card_move" else "card_move"

/-- A whole drag gesture as seen by the history manager (C7):
`saveDragState` with the start board positions, then
`finishDragOperation` on the end board. -/
def dragGesture (m : UndoRedoManager) (b0 b1 : Board) (cardIds : List ℕ) :
    UndoRedoManager :=
  finishDragOperation
    (saveDragState m (dragOpTag cardIds) cardIds (startPositionsOf b0 cardIds)) b1

/-- The history invariant of C3: the current index lies in
`[-1, length - 1]` and the history never exceeds the capacity (which is
positive: the source fixes it at 50). -/
def Inv (m : UndoRedoManager) : Prop :=
  -1 ≤ m.currentIndex ∧ m.currentIndex ≤ (m.history.length : ℤ) - 1 ∧
    m.history.length ≤ m.maxHistorySize ∧ 0 < m.maxHistorySize

/-- The operations driving the history manager, for the C3 invariant:
arbitrary board edits between calls, `saveState`, `undo`, `redo`,
`clearHistory` and the startup `initial_state` capture. -/
inductive HistOp where
  | edit : Board → HistOp
  | save : String → HistOp
  | doUndo : HistOp
  | doRedo : HistOp
  | clear : HistOp
  | init : HistOp

/-- One history-manager operation applied to (manager, live board). -/
def runOp (s : UndoRedoManager × Board) (op : HistOp) : UndoRedoManager × Board :=
  match op with
  | .edit b1 => (s.1, b1)
  | .save tag => (saveState s.1 s.2 tag, s.2)
  | .doUndo => let r := undo s.1 s.2; (r.1, r.2.1)
  | .doRedo => let r := redo s.1 s.2; (r.1, r.2.1)
  | .clear => (clearHistory s.1, s.2)
  | .init => (initHistory s.1 s.2, s.2)

/-- A sequence of history-manager operations. -/
def runOps (s : UndoRedoManager × Board) (ops : List HistOp) :
    UndoRedoManager × Board :=
  ops.foldl runOp s

/-- A sequence of `saveState` calls, each capturing the board supplied
with it (the live board at call time). -/
def saveSeq (m : UndoRedoManager) (saves : List (String × Board)) :
    UndoRedoManager :=
  saves.foldl (fun acc p => saveState acc p.2 p.1) m

/-- `n` consecutive `undo` calls; the Bool records whether every call
succeeded. -/
def undoIter : ℕ → UndoRedoManager → Board → UndoRedoManager × Board × Bool
  | 0, m, b => (m, b, true)
  | n + 1, m, b =>
      let r := undo m b
      let r2 := undoIter n r.1 r.2.1
      (r2.1, r2.2.1, r.2.2 && r2.2.2)

/-- `n` consecutive `redo` calls; the Bool records whether every call
succeeded. -/
def redoIter : ℕ → UndoRedoManager → Board → UndoRedoManager × Board × Bool
  | 0, m, b => (m, b, true)
  | n + 1, m, b =>
      let r := redo m b
      let r2 := redoIter n r.1 r.2.1
      (r2.1, r2.2.1, r.2.2 && r2.2.2)

/-- Well-formed board: the active card, when set, is present in the
store (the code maintains this: `deleteCard` clears the active id and
`applyState` drops a missing one). -/
def Board.ActiveWF (b : Board) : Prop :=
  ∀ a, b.activeCard = some a → b.hasCard a = true

/-- The restored board content matches a snapshot: every card is looked
up by id with equal fields, and the selection and active id agree —
the order-insensitive reading of claim C1. -/
def MatchesSnapshot (b : Board) (s : Snapshot) : Prop :=
  (∀ i : ℕ, b.findCard i = s.cards.find? (fun c => c.id == i)) ∧
  b.selectedCards = s.selectedCards ∧ b.activeCard = s.activeCard

/-- `undo` with the side effects of the restore made explicit for C10:
`applyState` sets the restoring flag, any `saveState` requests fired by
the side-effecting mutations of the restore run against the manager with the
flag set, and the `finally` clears the flag. -/
def undoWithEffects (m : UndoRedoManager) (b : Board)
    (effects : List (String × Board)) : UndoRedoManager × Board × Bool :=
  if m.canUndo then
    let m1 := { m with currentIndex := m.currentIndex - 1 }
    let e := m1.history.getD m1.currentIndex.toNat defaultEntry
    let m2 := { m1 with isPerformingUndoRedo := true }
    let m3 := effects.foldl (fun acc p => saveState acc p.2 p.1) m2
    ({ m3 with isPerformingUndoRedo := false }, applyState b e.state, true)
  else (m, b, false)

/-- `redo` with the side effects of the restore made explicit, as in
`undoWithEffects`. -/
def redoWithEffects (m : UndoRedoManager) (b : Board)
    (effects : List (String × Board)) : UndoRedoManager × Board × Bool :=
  if m.canRedo then
    let m1 := { m with currentIndex := m.currentIndex + 1 }
    let e := m1.history.getD m1.currentIndex.toNat defaultEntry
    let m2 := { m1 with isPerformingUndoRedo := true }
    let m3 := effects.foldl (fun acc p => saveState acc p.2 p.1) m2
    ({ m3 with isPerformingUndoRedo := false }, applyState b e.state, true)
  else (m, b, false)

/-! Storage import path (`Storage.importData`, storage.js 192-223). -/

/-- The `cards` field of a parsed document: absent (`undefined`), null,
some other non-array value (truthy or falsy, both rejected), or an
array of card records. -/
inductive CardsField where
  | missing : CardsField
  | nullVal : CardsField
  | nonArray : String → CardsField
  | arrayVal : List Card → CardsField
deriving DecidableEq

/-- The validation `data.cards && Array.isArray(data.cards)`
(storage.js 200): arrays — including empty ones, which are truthy — are
accepted, everything else is rejected. -/
def CardsField.asArray : CardsField → Option (List Card)
  | arrayVal cs => some cs
  | _ => none

/-- A parsed import document; `worldState` is optional and a present
record is truthy. -/
structure ImportDoc where
  cards : CardsField
  worldState : Option WorldStateRec
deriving DecidableEq

/-- The payload persisted by `saveData` (storage.js 10-24). -/
structure SavedData where
  cards : List Card
  worldState : Option WorldStateRec
deriving DecidableEq

/-- The application state touched by the import path: the persisted
payload, the card store and the viewport. -/
structure AppState where
  persisted : Option SavedData
  board : Board
  world : WorldView
deriving DecidableEq

/-- `loadCards` (cards.js 666-676): clears the store and the selection
and re-creates every record. -/
def loadCards (b : Board) (cs : List Card) : Board :=
  cs.foldl createCardData { b with cards := [], selectedCards := [] }

/-- `importData` (storage.js 192-223) after the file read: `none`
models a `JSON.parse` failure (the catch rejects); otherwise the
document is validated, and only on success is it persisted
(`saveData`), loaded into the card store (`loadCards`), and its world
state applied.  Returns the new application state and the
resolve/reject outcome. -/
def importData (st : AppState) (input : Option ImportDoc) :
    AppState × Except String ImportDoc :=
  match input with
  | none => (st, Except.error "parse error")
  | some data =>
      match data.cards.asArray with
      | some cs =>
          let st1 := { st with persisted := some ⟨cs, data.worldState⟩ }
          let st2 := { st1 with board := loadCards st1.board cs }
          let st3 := match data.worldState with
            | some ws => { st2 with world := applyWorldState st2.world ws }
            | none => st2
          (st3, Except.ok data)
      | none => (st, Except.error "Invalid data format")

/-- A board with no cards, used by concrete witnesses. -/
def emptyBoard : Board := ⟨[], 1, [], none⟩

/-- A board holding the two sample cards, used by concrete witnesses. -/
def twoCardBoard : Board := ⟨wCards, 3, [1], some 1⟩

/-- The `hasChanged` test of `finishDragOperation` (undoredo.js 77-86)
expressed on the start and end boards. -/
def dragChanged (b0 b1 : Board) (cardIds : List ℕ) : Bool :=
  cardIds.any (fun i =>
    match lookupPos (startPositionsOf b0 cardIds) i,
          lookupPos (startPositionsOf b1 cardIds) i with
    | some s, some f => decide (s.1 ≠ f.1 ∨ s.2 ≠ f.2)
    | _, _ => false)

/-- A board with the first sample card moved, used by concrete
witnesses. -/
def twoCardBoardMoved : Board :=
  ⟨[⟨1, 5, 0, 300, HeightVal.px 150, "a"⟩, ⟨2, 400, 50, 300, HeightVal.px 150, "b"⟩],
   3, [1], some 1⟩

/-! Theorems: helper lemmas first, then one main theorem (with its
witness or counterexample) per claim. -/

/-- C4: after a wheel zoom at screen point `(sx, sy)` with any raw
delta (entering as the positive factor `zoom`), the world point under
`(sx, sy)` computed with the post-zoom target transform equals the one
computed with the pre-zoom target transform: the point under the cursor
does not move, including when the new target scale is clamped at
`MIN_SCALE` or `MAX_SCALE`. -/
theorem zoom_anchor_preserved (w : WorldView) (sx sy zoom : ℚ)
    (hs : 0 < w.targetScale) :
    screenToWorld (wheelZoom w sx sy zoom).targetTX
        (wheelZoom w sx sy zoom).targetTY
        (wheelZoom w sx sy zoom).targetScale sx sy
      = screenToWorld w.targetTX w.targetTY w.targetScale sx sy := by
  have hpos : 0 < min MAX_SCALE (max MIN_SCALE (w.targetScale * zoom)) := by
    have h1 : (0:ℚ) < MIN_SCALE := by norm_num [MIN_SCALE]
    have h2 : MIN_SCALE ≤ max MIN_SCALE (w.targetScale * zoom) := le_max_left _ _
    have h3 : (0:ℚ) < MAX_SCALE := by norm_num [MAX_SCALE]
    exact lt_min h3 (lt_of_lt_of_le h1 h2)
  have hs0 : w.targetScale ≠ 0 := ne_of_gt hs
  have hn0 : min MAX_SCALE (max MIN_SCALE (w.targetScale * zoom)) ≠ 0 := ne_of_gt hpos
  simp only [wheelZoom, screenToWorld, Prod.mk.injEq]
  constructor <;> field_simp <;> ring

/-- Witness for C4 at the spec scenario: zoom at cursor `(400, 300)`
from scale 1 with factor 2. -/
theorem zoom_anchor_preserved_witness :
    screenToWorld (wheelZoom ⟨0, 0, 1, 0, 0, 1⟩ 400 300 2).targetTX
        (wheelZoom ⟨0, 0, 1, 0, 0, 1⟩ 400 300 2).targetTY
        (wheelZoom ⟨0, 0, 1, 0, 0, 1⟩ 400 300 2).targetScale 400 300
      = screenToWorld 0 0 1 400 300 :=
  zoom_anchor_preserved ⟨0, 0, 1, 0, 0, 1⟩ 400 300 2 (by norm_num)

/-- C9 counterexample: `applyWorldState` copies a persisted scale
verbatim, so applying a world state with `scale = 5` leaves the current
scale outside `[MIN_SCALE, MAX_SCALE]`. -/
theorem scale_bounds_counterexample :
    (applyWorldState ⟨0, 0, 1, 0, 0, 1⟩
        ⟨none, none, some 5, none, none, none⟩).scale = 5 ∧
    ¬ (applyWorldState ⟨0, 0, 1, 0, 0, 1⟩
        ⟨none, none, some 5, none, none, none⟩).scale ≤ MAX_SCALE := by
  constructor
  · rfl
  · norm_num [applyWorldState, jsOr, MAX_SCALE]

/-- C9 amended: wheel zoom always clamps the target scale into
`[MIN_SCALE, MAX_SCALE]` and leaves the current scale unchanged; the
animation lerp keeps the current scale inside the bounds whenever both
the current and the target scale are inside them; but
`applyWorldState` copies the supplied values without clamping, so it
preserves the bounds only when the supplied world state itself lies
within them. -/
theorem scale_bounds_amended :
    (∀ (w : WorldView) (mx my z : ℚ),
        MIN_SCALE ≤ (wheelZoom w mx my z).targetScale ∧
        (wheelZoom w mx my z).targetScale ≤ MAX_SCALE ∧
        (wheelZoom w mx my z).scale = w.scale) ∧
    (∀ w : WorldView,
        MIN_SCALE ≤ w.scale → w.scale ≤ MAX_SCALE →
        MIN_SCALE ≤ w.targetScale → w.targetScale ≤ MAX_SCALE →
        MIN_SCALE ≤ (animateStep w).scale ∧ (animateStep w).scale ≤ MAX_SCALE ∧
        (animateStep w).targetScale = w.targetScale) ∧
    (∀ (w : WorldView) (ws : WorldStateRec),
        MIN_SCALE ≤ w.scale → w.scale ≤ MAX_SCALE →
        MIN_SCALE ≤ w.targetScale → w.targetScale ≤ MAX_SCALE →
        (∀ s, ws.scale = some s → MIN_SCALE ≤ s ∧ s ≤ MAX_SCALE) →
        (∀ t, ws.targetScale = some t → t ≠ 0 → MIN_SCALE ≤ t ∧ t ≤ MAX_SCALE) →
        (MIN_SCALE ≤ (applyWorldState w ws).scale ∧
         (applyWorldState w ws).scale ≤ MAX_SCALE ∧
         MIN_SCALE ≤ (applyWorldState w ws).targetScale ∧
         (applyWorldState w ws).targetScale ≤ MAX_SCALE)) := by
  refine ⟨?_, ?_, ?_⟩
  · intro w mx my z
    refine ⟨?_, ?_, rfl⟩
    · have h2 : MIN_SCALE ≤ MAX_SCALE := by norm_num [MIN_SCALE, MAX_SCALE]
      exact le_min h2 (le_max_left _ _)
    · exact min_le_left _ _
  · intro w h1 h2 h3 h4
    refine ⟨?_, ?_, rfl⟩
    · simp only [animateStep, DAMPING]
      linarith
    · simp only [animateStep, DAMPING]
      linarith
  · intro w ws h1 h2 h3 h4 hsc htg
    simp only [applyWorldState]
    cases hws : ws.scale with
    | none =>
        cases ws.translateX <;> cases ws.translateY <;>
          simp_all
    | some s =>
        have hs := hsc s hws
        have htgt : MIN_SCALE ≤ jsOr ws.targetScale s ∧ jsOr ws.targetScale s ≤ MAX_SCALE := by
          cases ht : ws.targetScale with
          | none => simpa [jsOr] using hs
          | some t =>
              by_cases ht0 : t = 0
              · simpa [jsOr, ht0] using hs
              · simpa [jsOr, ht0] using htg t ht ht0
        cases ws.translateX <;> cases ws.translateY <;>
          simp_all

/-- Witness for C9 amended: applying an in-bounds world state to the
initial world keeps both scales in bounds. -/
theorem scale_bounds_amended_witness :
    MIN_SCALE ≤ (applyWorldState ⟨0, 0, 1, 0, 0, 1⟩
        ⟨some 3, none, some 2, none, none, some 1⟩).scale ∧
    (applyWorldState ⟨0, 0, 1, 0, 0, 1⟩
        ⟨some 3, none, some 2, none, none, some 1⟩).scale ≤ MAX_SCALE ∧
    MIN_SCALE ≤ (applyWorldState ⟨0, 0, 1, 0, 0, 1⟩
        ⟨some 3, none, some 2, none, none, some 1⟩).targetScale ∧
    (applyWorldState ⟨0, 0, 1, 0, 0, 1⟩
        ⟨some 3, none, some 2, none, none, some 1⟩).targetScale ≤ MAX_SCALE :=
  scale_bounds_amended.2.2 ⟨0, 0, 1, 0, 0, 1⟩
    ⟨some 3, none, some 2, none, none, some 1⟩
    (by norm_num [MIN_SCALE]) (by norm_num [MAX_SCALE])
    (by norm_num [MIN_SCALE]) (by norm_num [MAX_SCALE])
    (by intro s hs; cases hs; constructor <;> norm_num [MIN_SCALE, MAX_SCALE])
    (by intro t ht h0; cases ht; constructor <;> norm_num [MIN_SCALE, MAX_SCALE])

theorem pairFold_fst (x y : ℚ) (dragged : Rect) (others : List Rect)
    (st : AxisState × AxisState) :
    (others.foldl
        (fun (st : AxisState × AxisState) target =>
          ((xAlignments x dragged target).foldl (snapStep x) st.1,
           (yAlignments y dragged target).foldl (snapStep y) st.2)) st).1
      = others.foldl
          (fun s target => (xAlignments x dragged target).foldl (snapStep x) s) st.1 := by
  induction others generalizing st with
  | nil => rfl
  | cons t ts ih => simpa using ih _

theorem pairFold_snd (x y : ℚ) (dragged : Rect) (others : List Rect)
    (st : AxisState × AxisState) :
    (others.foldl
        (fun (st : AxisState × AxisState) target =>
          ((xAlignments x dragged target).foldl (snapStep x) st.1,
           (yAlignments y dragged target).foldl (snapStep y) st.2)) st).2
      = others.foldl
          (fun s target => (yAlignments y dragged target).foldl (snapStep y) s) st.2 := by
  induction others generalizing st with
  | nil => rfl
  | cons t ts ih => simpa using ih _

theorem foldl_over_bind {α β γ : Type} (f : γ → List α) (g : β → α → β) :
    ∀ (l : List γ) (b : β),
      (l.bind f).foldl g b = l.foldl (fun s t => (f t).foldl g s) b := by
  intro l
  induction l with
  | nil => intro b; rfl
  | cons t ts ih => intro b; simp [List.foldl_append, ih]

/-- The sequential minimum-tracking fold of one axis computes the first
minimizer of the qualifying candidates: `List.argmin` keeps the earlier
element on ties, exactly like the strict `dist < minDist` update. -/
theorem foldl_snapStep_argmin (pos : ℚ) (cands : List Alignment) :
    cands.foldl (snapStep pos) ⟨SNAP_DISTANCE + 1, pos, none⟩
      = match (cands.filter qualifies).argmin Alignment.dist with
        | none => ⟨SNAP_DISTANCE + 1, pos, none⟩
        | some w => ⟨w.dist, pos + (w.targetPos - w.draggedPos), some w.targetPos⟩ := by
  induction cands using List.reverseRecOn with
  | nil => simp
  | append_singleton l a ih =>
      rw [List.foldl_append, List.filter_append, ih]
      by_cases h : a.dist < SNAP_DISTANCE
      · have hfa : List.filter qualifies [a] = [a] := by simp [qualifies, h]
        rw [hfa, List.argmin_concat]
        have h6 : a.dist < SNAP_DISTANCE + 1 := h.trans (lt_add_one _)
        cases hl : (l.filter qualifies).argmin Alignment.dist with
        | none => simp [snapStep, h, h6]
        | some w =>
            by_cases hw : a.dist < w.dist
            · simp [snapStep, h, hw]
            · simp [snapStep, h, hw]
      · have hfa : List.filter qualifies [a] = ([] : List Alignment) := by
          simp [qualifies, h]
        rw [hfa, List.append_nil]
        cases hl : (l.filter qualifies).argmin Alignment.dist with
        | none => simp [snapStep, h]
        | some w => simp [snapStep, h]

/-- C5: per-axis characterization of `applySnapping` over the candidate
list in iteration order.  If no candidate distance is strictly below
the snap threshold, the axis output equals the unmodified input and its
snap line is null.  Otherwise the winner is the first candidate
attaining the minimal distance (`List.argmin` returns the first
minimizer, so the first-encountered equal-distance candidate wins ties,
and only one snap line per axis is active); the distance of the winner is
strictly below the threshold and minimal among qualifying candidates,
and the output coordinate equals the input shifted by the signed
difference that makes the winning alignment exact. -/
theorem applySnapping_spec (x y : ℚ) (dragged : Rect) (others : List Rect) :
    (((xCandidates x dragged others).filter qualifies).argmin Alignment.dist = none →
        (applySnapping x y dragged others).x = x ∧
        (applySnapping x y dragged others).snapLineX = none) ∧
    (∀ w, ((xCandidates x dragged others).filter qualifies).argmin Alignment.dist = some w →
        w.dist < SNAP_DISTANCE ∧
        (∀ a ∈ xCandidates x dragged others, a.dist < SNAP_DISTANCE → w.dist ≤ a.dist) ∧
        (applySnapping x y dragged others).x = x + (w.targetPos - w.draggedPos) ∧
        (applySnapping x y dragged others).snapLineX = some w.targetPos) ∧
    (((yCandidates y dragged others).filter qualifies).argmin Alignment.dist = none →
        (applySnapping x y dragged others).y = y ∧
        (applySnapping x y dragged others).snapLineY = none) ∧
    (∀ w, ((yCandidates y dragged others).filter qualifies).argmin Alignment.dist = some w →
        w.dist < SNAP_DISTANCE ∧
        (∀ a ∈ yCandidates y dragged others, a.dist < SNAP_DISTANCE → w.dist ≤ a.dist) ∧
        (applySnapping x y dragged others).y = y + (w.targetPos - w.draggedPos) ∧
        (applySnapping x y dragged others).snapLineY = some w.targetPos) := by
  have hxState :
      (applySnapping x y dragged others).x
          = ((xCandidates x dragged others).foldl (snapStep x)
              ⟨SNAP_DISTANCE + 1, x, none⟩).snapped ∧
      (applySnapping x y dragged others).snapLineX
          = ((xCandidates x dragged others).foldl (snapStep x)
              ⟨SNAP_DISTANCE + 1, x, none⟩).snapLine := by
    simp only [applySnapping, xCandidates]
    rw [pairFold_fst x y dragged others, foldl_over_bind]
    exact ⟨rfl, rfl⟩
  have hyState :
      (applySnapping x y dragged others).y
          = ((yCandidates y dragged others).foldl (snapStep y)
              ⟨SNAP_DISTANCE + 1, y, none⟩).snapped ∧
      (applySnapping x y dragged others).snapLineY
          = ((yCandidates y dragged others).foldl (snapStep y)
              ⟨SNAP_DISTANCE + 1, y, none⟩).snapLine := by
    simp only [applySnapping, yCandidates]
    rw [pairFold_snd x y dragged others, foldl_over_bind]
    exact ⟨rfl, rfl⟩
  refine ⟨?_, ?_, ?_, ?_⟩
  · intro hnone
    rw [hxState.1, hxState.2, foldl_snapStep_argmin, hnone]
    exact ⟨rfl, rfl⟩
  · intro w hw
    have hwmem : w ∈ (xCandidates x dragged others).filter qualifies :=
      List.argmin_mem hw
    have hwq : w.dist < SNAP_DISTANCE := by
      have := (List.mem_filter.mp hwmem).2
      simpa [qualifies] using this
    refine ⟨hwq, ?_, ?_, ?_⟩
    · intro a ha haq
      have hamem : a ∈ (xCandidates x dragged others).filter qualifies :=
        List.mem_filter.mpr ⟨ha, by simpa [qualifies] using haq⟩
      exact List.le_of_mem_argmin hamem hw
    · rw [hxState.1, foldl_snapStep_argmin, hw]
    · rw [hxState.2, foldl_snapStep_argmin, hw]
  · intro hnone
    rw [hyState.1, hyState.2, foldl_snapStep_argmin, hnone]
    exact ⟨rfl, rfl⟩
  · intro w hw
    have hwmem : w ∈ (yCandidates y dragged others).filter qualifies :=
      List.argmin_mem hw
    have hwq : w.dist < SNAP_DISTANCE := by
      have := (List.mem_filter.mp hwmem).2
      simpa [qualifies] using this
    refine ⟨hwq, ?_, ?_, ?_⟩
    · intro a ha haq
      have hamem : a ∈ (yCandidates y dragged others).filter qualifies :=
        List.mem_filter.mpr ⟨ha, by simpa [qualifies] using haq⟩
      exact List.le_of_mem_argmin hamem hw
    · rw [hyState.1, foldl_snapStep_argmin, hw]
    · rw [hyState.2, foldl_snapStep_argmin, hw]

/-- Witness for C5 at the spec end-to-end scenario 1: card B dragged to
`x = 302` next to card A at `x = 0` with width 300 snaps to `x = 300`
by the left-to-right alignment, snap line at 300. -/
theorem applySnapping_spec_witness :
    ((xCandidates 302 ⟨302, 2, 300, 150⟩ [⟨0, 0, 300, 150⟩]).filter qualifies).argmin
        Alignment.dist = some ⟨302, 300⟩ ∧
    (applySnapping 302 2 ⟨302, 2, 300, 150⟩ [⟨0, 0, 300, 150⟩]).x = 302 + (300 - 302) ∧
    (applySnapping 302 2 ⟨302, 2, 300, 150⟩ [⟨0, 0, 300, 150⟩]).snapLineX = some 300 := by
  have hfilter : (xCandidates 302 ⟨302, 2, 300, 150⟩ [⟨0, 0, 300, 150⟩]).filter qualifies
      = [⟨302, 300⟩] := by
    norm_num [xCandidates, xAlignments, qualifies, Alignment.dist, SNAP_DISTANCE, List.filter]
  have hmin : ((xCandidates 302 ⟨302, 2, 300, 150⟩ [⟨0, 0, 300, 150⟩]).filter
      qualifies).argmin Alignment.dist = some ⟨302, 300⟩ := by
    rw [hfilter]; exact List.argmin_singleton
  have h := (applySnapping_spec 302 2 ⟨302, 2, 300, 150⟩ [⟨0, 0, 300, 150⟩]).2.1
    ⟨302, 300⟩ hmin
  exact ⟨hmin, h.2.2.1, h.2.2.2⟩

/-- C6: during a multi-card drag every member keeps its relative offset
to every other member unchanged from drag start: for any pointer
movement and any snap outcome of the reference card, the snap
correction is applied uniformly, so the coordinate differences between
any two members equal the differences of their starting positions; in
particular with no snapping engaged the group moves rigidly by the
world delta of the pointer. -/
theorem multi_drag_rigidity (mouseStartX mouseStartY mouseX mouseY : ℚ)
    (selected : List Card) (refOff : DragOffset) (refRect : Rect)
    (others : List Rect) (i j : ℕ)
    (hi : i < selected.length) (hj : j < selected.length)
    (hi2 : i < (updateMultiDrag mouseX mouseY
        (startDragOffsets mouseStartX mouseStartY selected)
        refOff refRect others).length)
    (hj2 : j < (updateMultiDrag mouseX mouseY
        (startDragOffsets mouseStartX mouseStartY selected)
        refOff refRect others).length) :
    ((updateMultiDrag mouseX mouseY
        (startDragOffsets mouseStartX mouseStartY selected)
        refOff refRect others).get ⟨i, hi2⟩).2.1
      - ((updateMultiDrag mouseX mouseY
        (startDragOffsets mouseStartX mouseStartY selected)
        refOff refRect others).get ⟨j, hj2⟩).2.1
      = (selected.get ⟨i, hi⟩).x - (selected.get ⟨j, hj⟩).x ∧
    ((updateMultiDrag mouseX mouseY
        (startDragOffsets mouseStartX mouseStartY selected)
        refOff refRect others).get ⟨i, hi2⟩).2.2
      - ((updateMultiDrag mouseX mouseY
        (startDragOffsets mouseStartX mouseStartY selected)
        refOff refRect others).get ⟨j, hj2⟩).2.2
      = (selected.get ⟨i, hi⟩).y - (selected.get ⟨j, hj⟩).y := by
  simp only [updateMultiDrag, startDragOffsets, List.map_map, List.get_eq_getElem,
    List.getElem_map, Function.comp]
  constructor <;> ring

/-- Witness for C6: two cards dragged together from pointer `(10, 10)`
to pointer `(40, 30)` keep their relative offsets. -/
theorem multi_drag_rigidity_witness :
    ((updateMultiDrag 40 30 (startDragOffsets 10 10 wCards)
        ⟨1, 10, 10⟩ ⟨0, 0, 300, 150⟩ []).get ⟨0, by decide⟩).2.1
      - ((updateMultiDrag 40 30 (startDragOffsets 10 10 wCards)
        ⟨1, 10, 10⟩ ⟨0, 0, 300, 150⟩ []).get ⟨1, by decide⟩).2.1
      = (wCards.get ⟨0, by decide⟩).x - (wCards.get ⟨1, by decide⟩).x ∧
    ((updateMultiDrag 40 30 (startDragOffsets 10 10 wCards)
        ⟨1, 10, 10⟩ ⟨0, 0, 300, 150⟩ []).get ⟨0, by decide⟩).2.2
      - ((updateMultiDrag 40 30 (startDragOffsets 10 10 wCards)
        ⟨1, 10, 10⟩ ⟨0, 0, 300, 150⟩ []).get ⟨1, by decide⟩).2.2
      = (wCards.get ⟨0, by decide⟩).y - (wCards.get ⟨1, by decide⟩).y :=
  multi_drag_rigidity 10 10 40 30 wCards ⟨1, 10, 10⟩ ⟨0, 0, 300, 150⟩ [] 0 1
    (by decide) (by decide) (by decide) (by decide)

/-! Helper lemmas about the history manager. -/

theorem captureCurrentState_eq (b : Board) :
    captureCurrentState b = ⟨b.cards, b.selectedCards, b.activeCard⟩ := by
  unfold captureCurrentState
  congr 1
  rw [show (fun c : Card => (⟨c.id, c.x, c.y, c.width, c.height, c.content⟩ : Card)) = id
    from rfl, List.map_id]

theorem saveState_flag_true (m : UndoRedoManager) (b : Board) (op : String)
    (h : m.isPerformingUndoRedo = true) : saveState m b op = m := by
  simp [saveState, h]

theorem saveState_fields (m : UndoRedoManager) (b : Board) (op : String) :
    (saveState m b op).maxHistorySize = m.maxHistorySize ∧
    (saveState m b op).isPerformingUndoRedo = m.isPerformingUndoRedo ∧
    (saveState m b op).pendingDragOperation = m.pendingDragOperation := by
  unfold saveState
  by_cases h : m.isPerformingUndoRedo
  · simp [h]
  · simp only [h, Bool.false_eq_true, if_false]
    split <;> (split <;> simp)

theorem saveState_at_end (m : UndoRedoManager) (b : Board) (op : String)
    (hflag : m.isPerformingUndoRedo = false)
    (hidx : m.currentIndex = (m.history.length : ℤ) - 1)
    (hcap : m.history.length + 1 ≤ m.maxHistorySize) :
    saveState m b op = { m with
      history := m.history ++ [⟨op, captureCurrentState b⟩],
      currentIndex := m.currentIndex + 1 } := by
  unfold saveState
  rw [hflag]
  simp only [Bool.false_eq_true, if_false]
  have htr : ¬ (m.currentIndex < (m.history.length : ℤ) - 1) := by omega
  rw [if_neg htr]
  have hev : ¬ ((m.history ++ [(⟨op, captureCurrentState b⟩ : HistoryEntry)]).length
      > m.maxHistorySize) := by
    simp only [List.length_append, List.length_cons, List.length_nil]
    omega
  rw [if_neg hev]

theorem saveState_evict (m : UndoRedoManager) (b : Board) (op : String)
    (hflag : m.isPerformingUndoRedo = false)
    (hidx : m.currentIndex = (m.history.length : ℤ) - 1)
    (hcap : m.history.length = m.maxHistorySize) (hM : 0 < m.maxHistorySize) :
    saveState m b op = { m with
      history := m.history.drop 1 ++ [⟨op, captureCurrentState b⟩],
      currentIndex := m.currentIndex } := by
  unfold saveState
  rw [hflag]
  simp only [Bool.false_eq_true, if_false]
  have htr : ¬ (m.currentIndex < (m.history.length : ℤ) - 1) := by omega
  rw [if_neg htr]
  have hev : (m.history ++ [(⟨op, captureCurrentState b⟩ : HistoryEntry)]).length
      > m.maxHistorySize := by
    simp only [List.length_append, List.length_cons, List.length_nil]
    omega
  rw [if_pos hev]
  rw [List.drop_append_of_le_length (by omega)]
  have h1 : m.currentIndex + 1 - 1 = m.currentIndex := by ring
  rw [h1]

theorem saveState_truncate (m : UndoRedoManager) (b : Board) (op : String)
    (hflag : m.isPerformingUndoRedo = false)
    (hlo : -1 ≤ m.currentIndex)
    (htr : m.currentIndex < (m.history.length : ℤ) - 1)
    (hcap : m.history.length ≤ m.maxHistorySize) :
    saveState m b op = { m with
      history := m.history.take (m.currentIndex + 1).toNat
        ++ [⟨op, captureCurrentState b⟩],
      currentIndex := m.currentIndex + 1 } := by
  unfold saveState
  rw [hflag]
  simp only [Bool.false_eq_true, if_false]
  rw [if_pos htr]
  have hev : ¬ ((m.history.take (m.currentIndex + 1).toNat
      ++ [(⟨op, captureCurrentState b⟩ : HistoryEntry)]).length > m.maxHistorySize) := by
    simp only [List.length_append, List.length_cons, List.length_nil, List.length_take]
    omega
  rw [if_neg hev]

theorem saveState_closes (m : UndoRedoManager) (b : Board) (op : String)
    (hflag : m.isPerformingUndoRedo = false) (hInv : Inv m) :
    (saveState m b op).currentIndex = ((saveState m b op).history.length : ℤ) - 1 ∧
    Inv (saveState m b op) := by
  obtain ⟨h1, h2, h3, h4⟩ := hInv
  by_cases htr : m.currentIndex < (m.history.length : ℤ) - 1
  · rw [saveState_truncate m b op hflag h1 htr h3]
    unfold Inv
    dsimp only
    simp only [List.length_append, List.length_cons, List.length_nil, List.length_take]
    exact ⟨by omega, by omega, by omega, by omega, h4⟩
  · have hidx : m.currentIndex = (m.history.length : ℤ) - 1 := by omega
    by_cases hev : m.history.length + 1 ≤ m.maxHistorySize
    · rw [saveState_at_end m b op hflag hidx hev]
      unfold Inv
      dsimp only
      simp only [List.length_append, List.length_cons, List.length_nil]
      exact ⟨by omega, by omega, by omega, by omega, h4⟩
    · have hLM : m.history.length = m.maxHistorySize := by omega
      rw [saveState_evict m b op hflag hidx hLM h4]
      unfold Inv
      dsimp only
      simp only [List.length_append, List.length_cons, List.length_nil, List.length_drop]
      exact ⟨by omega, by omega, by omega, by omega, h4⟩

theorem saveState_inv (m : UndoRedoManager) (b : Board) (op : String)
    (h : Inv m) : Inv (saveState m b op) := by
  by_cases hflag : m.isPerformingUndoRedo = true
  · rw [saveState_flag_true m b op hflag]; exact h
  · exact (saveState_closes m b op (by simpa using hflag) h).2

theorem undo_manager (m : UndoRedoManager) (b : Board) :
    (undo m b).1 = if m.canUndo then
      { m with currentIndex := m.currentIndex - 1, isPerformingUndoRedo := false }
    else m := by
  unfold undo
  split <;> rfl

theorem redo_manager (m : UndoRedoManager) (b : Board) :
    (redo m b).1 = if m.canRedo then
      { m with currentIndex := m.currentIndex + 1, isPerformingUndoRedo := false }
    else m := by
  unfold redo
  split <;> rfl

theorem undo_inv (m : UndoRedoManager) (b : Board) (h : Inv m) : Inv (undo m b).1 := by
  rw [undo_manager]
  obtain ⟨h1, h2, h3, h4⟩ := h
  split
  · rename_i hc
    have hc2 : 0 < m.currentIndex := by
      simpa [UndoRedoManager.canUndo] using hc
    exact ⟨by dsimp only; omega, by dsimp only; omega, h3, h4⟩
  · exact ⟨h1, h2, h3, h4⟩

theorem redo_inv (m : UndoRedoManager) (b : Board) (h : Inv m) : Inv (redo m b).1 := by
  rw [redo_manager]
  obtain ⟨h1, h2, h3, h4⟩ := h
  split
  · rename_i hc
    have hc2 : m.currentIndex < (m.history.length : ℤ) - 1 := by
      simpa [UndoRedoManager.canRedo] using hc
    exact ⟨by dsimp only; omega, by dsimp only; omega, h3, h4⟩
  · exact ⟨h1, h2, h3, h4⟩

theorem runOp_inv (s : UndoRedoManager × Board) (op : HistOp)
    (h : Inv s.1) : Inv (runOp s op).1 := by
  cases op with
  | edit b1 => exact h
  | save tag => exact saveState_inv s.1 s.2 tag h
  | doUndo => exact undo_inv s.1 s.2 h
  | doRedo => exact redo_inv s.1 s.2 h
  | clear =>
      obtain ⟨h1, h2, h3, h4⟩ := h
      refine ⟨?_, ?_, ?_, h4⟩ <;> simp [runOp, clearHistory]
  | init => exact saveState_inv s.1 s.2 "initial_state" h

theorem runOps_inv (ops : List HistOp) (s : UndoRedoManager × Board)
    (h : Inv s.1) : Inv (runOps s ops).1 := by
  induction ops generalizing s with
  | nil => exact h
  | cons op rest ih => exact ih (runOp s op) (runOp_inv s op h)

theorem saveSeq_flagged (effects : List (String × Board)) (m : UndoRedoManager)
    (h : m.isPerformingUndoRedo = true) :
    effects.foldl (fun acc p => saveState acc p.2 p.1) m = m := by
  induction effects generalizing m with
  | nil => rfl
  | cons e rest ih =>
      simp only [List.foldl_cons, saveState_flag_true _ _ _ h]
      exact ih m h

/-- C3: starting from a fresh manager, every sequence of history
operations (saves, undos, redos, clears, the startup capture, and
arbitrary board edits in between) preserves the invariant: the history
never exceeds the capacity and the index stays in `[-1, length - 1]`;
undo is available exactly when the index is positive and redo exactly
when the index is before the last entry; and a `saveState` hitting the
cap with the index at the end evicts the oldest entry and keeps the
index value, preserving its relative position at the new end. -/
theorem history_invariants (ops : List HistOp) (b0 : Board) :
    Inv (runOps (freshManager, b0) ops).1 ∧
    (∀ m : UndoRedoManager, m.canUndo = true ↔ 0 < m.currentIndex) ∧
    (∀ m : UndoRedoManager,
        m.canRedo = true ↔ m.currentIndex < (m.history.length : ℤ) - 1) ∧
    (∀ (m : UndoRedoManager) (b : Board) (op : String),
        m.isPerformingUndoRedo = false →
        0 < m.maxHistorySize →
        m.history.length = m.maxHistorySize →
        m.currentIndex = (m.history.length : ℤ) - 1 →
        (saveState m b op).history
            = m.history.drop 1 ++ [⟨op, captureCurrentState b⟩] ∧
        (saveState m b op).currentIndex = m.currentIndex ∧
        (saveState m b op).history.length = m.maxHistorySize) := by
  refine ⟨?_, ?_, ?_, ?_⟩
  · refine runOps_inv ops (freshManager, b0) ?_
    refine ⟨?_, ?_, ?_, ?_⟩ <;> norm_num [freshManager]
  · intro m
    simp [UndoRedoManager.canUndo]
  · intro m
    simp [UndoRedoManager.canRedo]
  · intro m b op hflag hM hLM hidx
    rw [saveState_evict m b op hflag hidx hLM hM]
    refine ⟨rfl, rfl, ?_⟩
    dsimp only
    simp only [List.length_append, List.length_cons, List.length_nil, List.length_drop]
    omega

/-- Witness for C3: a concrete operation sequence keeps the invariant,
and a manager at capacity one evicts its single entry on save. -/
theorem history_invariants_witness :
    Inv (runOps (freshManager, emptyBoard)
      [HistOp.init, HistOp.save "create_card", HistOp.doUndo, HistOp.doRedo]).1 ∧
    (saveState ⟨[⟨"a", ⟨[], [], none⟩⟩], 0, 1, false, none⟩ emptyBoard "b").history
      = ([(⟨"a", ⟨[], [], none⟩⟩ : HistoryEntry)].drop 1
          ++ [⟨"b", captureCurrentState emptyBoard⟩]) := by
  constructor
  · exact (history_invariants
      [HistOp.init, HistOp.save "create_card", HistOp.doUndo, HistOp.doRedo] emptyBoard).1
  · exact ((history_invariants [] emptyBoard).2.2.2
      ⟨[⟨"a", ⟨[], [], none⟩⟩], 0, 1, false, none⟩ emptyBoard "b"
      rfl (by norm_num) rfl (by norm_num)).1

/-- C2: after `saveState(A)`, a successful `undo`, and `saveState(B)`,
a subsequent `redo` fails: `saveState` discards every entry after the
current index before appending, so its index ends at the last entry and
redo is unavailable. -/
theorem save_undo_save_redo_fails
    (m : UndoRedoManager) (bA bB b : Board) (opA opB : String)
    (hflag : m.isPerformingUndoRedo = false) (hInv : Inv m)
    (hund : (undo (saveState m bA opA) b).2.2 = true) :
    (redo (saveState (undo (saveState m bA opA) b).1 bB opB)
        (undo (saveState m bA opA) b).2.1).2.2 = false := by
  have h1 := saveState_closes m bA opA hflag hInv
  have hf1 := saveState_fields m bA opA
  have hflag1 : (saveState m bA opA).isPerformingUndoRedo = false := by
    rw [hf1.2.1]; exact hflag
  have hc : (saveState m bA opA).canUndo = true := by
    by_contra hc
    have hfail : (undo (saveState m bA opA) b).2.2 = false := by
      unfold undo
      rw [if_neg hc]
    rw [hfail] at hund
    exact absurd hund (by decide)
  have hm2 : (undo (saveState m bA opA) b).1
      = { saveState m bA opA with
            currentIndex := (saveState m bA opA).currentIndex - 1,
            isPerformingUndoRedo := false } := by
    rw [undo_manager, if_pos hc]
  have hflag2 : ((undo (saveState m bA opA) b).1).isPerformingUndoRedo = false := by
    rw [hm2]
  have hInv2 : Inv (undo (saveState m bA opA) b).1 := undo_inv _ b h1.2
  have h3 := saveState_closes (undo (saveState m bA opA) b).1 bB opB hflag2 hInv2
  have hcr : (saveState (undo (saveState m bA opA) b).1 bB opB).canRedo = false := by
    simp only [UndoRedoManager.canRedo, decide_eq_false_iff_not]
    omega
  unfold redo
  rw [hcr]
  simp

/-- Witness for C2 at a concrete manager with one prior entry. -/
theorem save_undo_save_redo_fails_witness :
    (redo (saveState (undo (saveState
            (⟨[⟨"s", ⟨[], [], none⟩⟩], 0, 50, false, none⟩ : UndoRedoManager)
            emptyBoard "a") emptyBoard).1 emptyBoard "b")
        (undo (saveState
            (⟨[⟨"s", ⟨[], [], none⟩⟩], 0, 50, false, none⟩ : UndoRedoManager)
            emptyBoard "a") emptyBoard).2.1).2.2 = false :=
  save_undo_save_redo_fails
    ⟨[⟨"s", ⟨[], [], none⟩⟩], 0, 50, false, none⟩ emptyBoard emptyBoard emptyBoard
    "a" "b" rfl (by refine ⟨?_, ?_, ?_, ?_⟩ <;> decide) (by decide)

/-- C10: an `undo` or `redo` modifies only the current index: whatever
`saveState` requests are fired by the side effects of the restore, the
restoring flag suppresses them, so the length, entry order
and entry contents are unchanged and the resulting manager equals the
plain index update. -/
theorem undo_redo_history_unchanged (m : UndoRedoManager) (b : Board)
    (effects effects2 : List (String × Board))
    (hflag : m.isPerformingUndoRedo = false) :
    (undoWithEffects m b effects).1.history = m.history ∧
    (undoWithEffects m b effects).1
      = { m with currentIndex :=
            if m.canUndo then m.currentIndex - 1 else m.currentIndex } ∧
    (undoWithEffects m b effects).1 = (undo m b).1 ∧
    (redoWithEffects m b effects2).1.history = m.history ∧
    (redoWithEffects m b effects2).1
      = { m with currentIndex :=
            if m.canRedo then m.currentIndex + 1 else m.currentIndex } ∧
    (redoWithEffects m b effects2).1 = (redo m b).1 := by
  have hu : (undoWithEffects m b effects).1 = (undo m b).1 := by
    unfold undoWithEffects undo
    by_cases hc : m.canUndo = true
    · rw [if_pos hc, if_pos hc]
      dsimp only
      rw [saveSeq_flagged effects _ rfl]
    · rw [if_neg hc, if_neg hc]
  have hr : (redoWithEffects m b effects2).1 = (redo m b).1 := by
    unfold redoWithEffects redo
    by_cases hc : m.canRedo = true
    · rw [if_pos hc, if_pos hc]
      dsimp only
      rw [saveSeq_flagged effects2 _ rfl]
    · rw [if_neg hc, if_neg hc]
  have hum : (undo m b).1 = { m with currentIndex :=
      if m.canUndo then m.currentIndex - 1 else m.currentIndex } := by
    rw [undo_manager]
    by_cases hc : m.canUndo = true
    · rw [if_pos hc, if_pos hc,
        show (false : Bool) = m.isPerformingUndoRedo from hflag.symm]
    · rw [if_neg hc, if_neg hc]
  have hrm : (redo m b).1 = { m with currentIndex :=
      if m.canRedo then m.currentIndex + 1 else m.currentIndex } := by
    rw [redo_manager]
    by_cases hc : m.canRedo = true
    · rw [if_pos hc, if_pos hc,
        show (false : Bool) = m.isPerformingUndoRedo from hflag.symm]
    · rw [if_neg hc, if_neg hc]
  refine ⟨?_, ?_, hu, ?_, ?_, hr⟩
  · rw [hu, hum]
  · rw [hu, hum]
  · rw [hr, hrm]
  · rw [hr, hrm]

/-- Witness for C10: a concrete two-entry manager undone with a
pending `create_card` save request fired mid-restore keeps its
history. -/
theorem undo_redo_history_unchanged_witness :
    (undoWithEffects
        (⟨[⟨"a", ⟨[], [], none⟩⟩, ⟨"b", ⟨[], [], none⟩⟩], 1, 50, false, none⟩ :
          UndoRedoManager)
        emptyBoard [("create_card", emptyBoard)]).1.history
      = [(⟨"a", ⟨[], [], none⟩⟩ : HistoryEntry), ⟨"b", ⟨[], [], none⟩⟩] :=
  (undo_redo_history_unchanged
    ⟨[⟨"a", ⟨[], [], none⟩⟩, ⟨"b", ⟨[], [], none⟩⟩], 1, 50, false, none⟩
    emptyBoard [("create_card", emptyBoard)] [] rfl).1

/-- C8: a document that fails validation — unparsable JSON, or a
`cards` field that is missing or not an array — is rejected with a
descriptive error and nothing is mutated: the persisted data, the card
store and the viewport stay exactly as before; replacement of board
state happens only after validation succeeds. -/
theorem importData_rejects_without_mutation (st : AppState) (input : Option ImportDoc)
    (hbad : input = none ∨ ∃ doc, input = some doc ∧ doc.cards.asArray = none) :
    (∃ msg, (importData st input).2 = Except.error msg) ∧
    (importData st input).1 = st := by
  rcases hbad with h | ⟨doc, hdoc, hcards⟩
  · subst h
    exact ⟨⟨"parse error", rfl⟩, rfl⟩
  · subst hdoc
    simp only [importData, hcards]
    exact ⟨⟨"Invalid data format", rfl⟩, trivial⟩

/-- Witness for C8 at the spec end-to-end scenario 3: a document with
a string-valued `cards` field fails, and the board keeps its prior two
cards. -/
theorem importData_rejects_without_mutation_witness :
    (∃ msg, (importData ⟨none, twoCardBoard, ⟨0, 0, 1, 0, 0, 1⟩⟩
        (some ⟨CardsField.nonArray "not an array", none⟩)).2 = Except.error msg) ∧
    (importData ⟨none, twoCardBoard, ⟨0, 0, 1, 0, 0, 1⟩⟩
        (some ⟨CardsField.nonArray "not an array", none⟩)).1
      = ⟨none, twoCardBoard, ⟨0, 0, 1, 0, 0, 1⟩⟩ :=
  importData_rejects_without_mutation ⟨none, twoCardBoard, ⟨0, 0, 1, 0, 0, 1⟩⟩
    (some ⟨CardsField.nonArray "not an array", none⟩)
    (Or.inr ⟨⟨CardsField.nonArray "not an array", none⟩, rfl, rfl⟩)

theorem lookupPos_missing (b : Board) (cardIds : List ℕ) (i : ℕ)
    (h : b.findCard i = none) :
    lookupPos (startPositionsOf b cardIds) i = none := by
  induction cardIds with
  | nil => rfl
  | cons j rest ih =>
      unfold startPositionsOf at ih ⊢
      cases hfc : b.findCard j with
      | none =>
          rw [List.filterMap_cons_none (by rw [hfc]; rfl)]
          exact ih
      | some c =>
          rw [List.filterMap_cons_some (by rw [hfc]; rfl)]
          unfold lookupPos
          rw [List.find?_cons]
          have hji : ((j, c.x, c.y).1 == i) = false := by
            by_contra hne
            have hji2 : j = i := by simpa using hne
            subst hji2
            rw [hfc] at h
            cases h
          rw [hji]
          exact ih

theorem lookupPos_startPositionsOf (b : Board) (cardIds : List ℕ) (i : ℕ)
    (hi : i ∈ cardIds) :
    lookupPos (startPositionsOf b cardIds) i = b.posOf i := by
  induction cardIds with
  | nil => cases hi
  | cons j rest ih =>
      unfold startPositionsOf at ih ⊢
      by_cases hji : j = i
      · subst hji
        cases hfc : b.findCard j with
        | none =>
            rw [List.filterMap_cons_none (by rw [hfc]; rfl)]
            have hmiss := lookupPos_missing b rest j hfc
            unfold startPositionsOf at hmiss
            rw [hmiss]
            unfold Board.posOf
            rw [hfc]
            rfl
        | some c =>
            rw [List.filterMap_cons_some (by rw [hfc]; rfl)]
            unfold lookupPos
            rw [List.find?_cons]
            rw [show ((j, c.x, c.y).1 == j) = true by simp]
            unfold Board.posOf
            rw [hfc]
            rfl
      · have hirest : i ∈ rest := by
          cases hi with
          | head => exact absurd rfl hji
          | tail _ h => exact h
        cases hfc : b.findCard j with
        | none =>
            rw [List.filterMap_cons_none (by rw [hfc]; rfl)]
            exact ih hirest
        | some c =>
            rw [List.filterMap_cons_some (by rw [hfc]; rfl)]
            unfold lookupPos
            rw [List.find?_cons]
            have hne : ((j, c.x, c.y).1 == i) = false := by simpa using hji
            rw [hne]
            exact ih hirest

theorem saveState_shape (m : UndoRedoManager) (b : Board) (op : String)
    (hflag : m.isPerformingUndoRedo = false) (hM : 0 < m.maxHistorySize) :
    ∃ kept pre suf, m.history = pre ++ (kept ++ suf) ∧
      (saveState m b op).history = kept ++ [⟨op, captureCurrentState b⟩] := by
  unfold saveState
  rw [hflag]
  simp only [Bool.false_eq_true, if_false]
  by_cases h3 : m.currentIndex < (m.history.length : ℤ) - 1
  · rw [if_pos h3]
    by_cases h4 : (m.history.take (m.currentIndex + 1).toNat
        ++ [(⟨op, captureCurrentState b⟩ : HistoryEntry)]).length > m.maxHistorySize
    · rw [if_pos h4]
      simp only [List.length_append, List.length_cons, List.length_nil] at h4
      refine ⟨(m.history.take (m.currentIndex + 1).toNat).drop 1,
        (m.history.take (m.currentIndex + 1).toNat).take 1,
        m.history.drop (m.currentIndex + 1).toNat, ?_, ?_⟩
      · rw [show (m.history.take (m.currentIndex + 1).toNat).take 1
              ++ ((m.history.take (m.currentIndex + 1).toNat).drop 1
                ++ m.history.drop (m.currentIndex + 1).toNat)
            = ((m.history.take (m.currentIndex + 1).toNat).take 1
                ++ (m.history.take (m.currentIndex + 1).toNat).drop 1)
              ++ m.history.drop (m.currentIndex + 1).toNat
          from (List.append_assoc _ _ _).symm]
        rw [List.take_append_drop, List.take_append_drop]
      · dsimp only
        rw [List.drop_append_of_le_length (by omega)]
    · rw [if_neg h4]
      exact ⟨m.history.take (m.currentIndex + 1).toNat, [],
        m.history.drop (m.currentIndex + 1).toNat,
        by rw [List.nil_append, List.take_append_drop], rfl⟩
  · rw [if_neg h3]
    by_cases h4 : (m.history ++ [(⟨op, captureCurrentState b⟩ : HistoryEntry)]).length
        > m.maxHistorySize
    · rw [if_pos h4]
      simp only [List.length_append, List.length_cons, List.length_nil] at h4
      refine ⟨m.history.drop 1, m.history.take 1, [], ?_, ?_⟩
      · rw [List.append_nil, List.take_append_drop]
      · dsimp only
        rw [List.drop_append_of_le_length (by omega)]
    · rw [if_neg h4]
      exact ⟨m.history, [], [], by simp, rfl⟩

theorem saveState_pending (m : UndoRedoManager) (pd : Option PendingDrag)
    (b : Board) (op : String) :
    saveState { m with pendingDragOperation := pd } b op
      = { saveState m b op with pendingDragOperation := pd } := by
  by_cases h : m.isPerformingUndoRedo = true
  · simp [saveState, h]
  · have h2 : m.isPerformingUndoRedo = false := by simpa using h
    simp only [saveState, h2, Bool.false_eq_true, if_false]
    by_cases h3 : m.currentIndex < (m.history.length : ℤ) - 1 <;>
      simp only [h3, if_true, if_false] <;> split <;> rfl

theorem finishDragOperation_eq (m : UndoRedoManager) (p : PendingDrag) (b : Board)
    (hflag : m.isPerformingUndoRedo = false) (hpend : m.pendingDragOperation = some p) :
    finishDragOperation m b
      = { (if p.cardIds.any (fun i =>
              match lookupPos p.startPositions i,
                    lookupPos (startPositionsOf b p.cardIds) i with
              | some s, some f => decide (s.1 ≠ f.1 ∨ s.2 ≠ f.2)
              | _, _ => false)
           then saveState m b p.operation else m) with
          pendingDragOperation := none } := by
  unfold finishDragOperation
  rw [hpend]
  dsimp only
  rw [hflag]
  simp only [Bool.false_eq_true, if_false]
  rfl

theorem dragChanged_iff (b0 b1 : Board) (cardIds : List ℕ)
    (hpres : ∀ i ∈ cardIds, (b0.findCard i).isSome ∧ (b1.findCard i).isSome) :
    dragChanged b0 b1 cardIds = true ↔ ∃ i ∈ cardIds, b0.posOf i ≠ b1.posOf i := by
  unfold dragChanged
  rw [List.any_eq_true]
  constructor
  · rintro ⟨i, hi, hp⟩
    refine ⟨i, hi, ?_⟩
    rw [lookupPos_startPositionsOf b0 cardIds i hi,
        lookupPos_startPositionsOf b1 cardIds i hi] at hp
    obtain ⟨h0s, h1s⟩ := hpres i hi
    obtain ⟨c0, hc0⟩ := Option.isSome_iff_exists.mp h0s
    obtain ⟨c1, hc1⟩ := Option.isSome_iff_exists.mp h1s
    unfold Board.posOf at hp ⊢
    rw [hc0, hc1] at hp ⊢
    simp only [Option.map_some'] at hp
    rw [decide_eq_true_iff] at hp
    intro heq
    simp only [Option.map_some'] at heq
    injection heq with heq2
    rw [Prod.mk.injEq] at heq2
    rcases hp with h | h
    · exact h heq2.1
    · exact h heq2.2
  · rintro ⟨i, hi, hne⟩
    refine ⟨i, hi, ?_⟩
    rw [lookupPos_startPositionsOf b0 cardIds i hi,
        lookupPos_startPositionsOf b1 cardIds i hi]
    obtain ⟨h0s, h1s⟩ := hpres i hi
    obtain ⟨c0, hc0⟩ := Option.isSome_iff_exists.mp h0s
    obtain ⟨c1, hc1⟩ := Option.isSome_iff_exists.mp h1s
    unfold Board.posOf at hne ⊢
    rw [hc0, hc1] at hne ⊢
    simp only [Option.map_some'] at hne ⊢
    rw [decide_eq_true_iff]
    by_contra hcon
    push_neg at hcon
    exact hne (by rw [hcon.1, hcon.2])

theorem dragGesture_eq (m : UndoRedoManager) (b0 b1 : Board) (cardIds : List ℕ)
    (hflag : m.isPerformingUndoRedo = false) :
    dragGesture m b0 b1 cardIds
      = { (if dragChanged b0 b1 cardIds
           then saveState m b1 (dragOpTag cardIds) else m) with
          pendingDragOperation := none } := by
  unfold dragGesture
  have hm1 : saveDragState m (dragOpTag cardIds) cardIds (startPositionsOf b0 cardIds)
      = { m with
          pendingDragOperation := some
            (⟨dragOpTag cardIds, cardIds, startPositionsOf b0 cardIds⟩ : PendingDrag) } := by
    simp [saveDragState, hflag]
  rw [hm1]
  rw [finishDragOperation_eq
    { m with
      pendingDragOperation := some
        (⟨dragOpTag cardIds, cardIds, startPositionsOf b0 cardIds⟩ : PendingDrag) }
    ⟨dragOpTag cardIds, cardIds, startPositionsOf b0 cardIds⟩ b1 hflag rfl]
  dsimp only
  unfold dragChanged
  by_cases hch : (cardIds.any (fun i =>
      match lookupPos (startPositionsOf b0 cardIds) i,
            lookupPos (startPositionsOf b1 cardIds) i with
      | some s, some f => decide (s.1 ≠ f.1 ∨ s.2 ≠ f.2)
      | _, _ => false)) = true
  · rw [if_pos hch, if_pos hch, saveState_pending]
  · rw [if_neg hch, if_neg hch]

/-- C7: a completed drag gesture — `saveDragState` at drag start with
the starting positions, `finishDragOperation` at drag end — writes no
history in the start phase; if the final position of some dragged card
differs from its starting position it produces exactly one new history
entry, tagged `card_move` for a single card and `multi_card_move` for a
group: the result equals a single `saveState` call on the end board
(with the pending drag cleared), and the new history is a kept slice of
the old history with exactly the one tagged entry appended; if every
dragged card ends at its starting position, the history is exactly
unchanged. -/
theorem drag_gesture_single_history_entry
    (m : UndoRedoManager) (b0 b1 : Board) (cardIds : List ℕ)
    (hflag : m.isPerformingUndoRedo = false)
    (hM : 0 < m.maxHistorySize)
    (hpres : ∀ i ∈ cardIds, (b0.findCard i).isSome ∧ (b1.findCard i).isSome) :
    ((saveDragState m (dragOpTag cardIds) cardIds (startPositionsOf b0 cardIds)).history
        = m.history) ∧
    ((∃ i ∈ cardIds, b0.posOf i ≠ b1.posOf i) →
        dragGesture m b0 b1 cardIds
          = { saveState m b1 (dragOpTag cardIds) with pendingDragOperation := none } ∧
        ∃ kept pre suf, m.history = pre ++ (kept ++ suf) ∧
          (dragGesture m b0 b1 cardIds).history
            = kept ++ [⟨dragOpTag cardIds, captureCurrentState b1⟩]) ∧
    ((∀ i ∈ cardIds, b0.posOf i = b1.posOf i) →
        (dragGesture m b0 b1 cardIds).history = m.history) := by
  refine ⟨?_, ?_, ?_⟩
  · unfold saveDragState
    rw [hflag]
    simp
  · intro hdiff
    have hch : dragChanged b0 b1 cardIds = true :=
      (dragChanged_iff b0 b1 cardIds hpres).mpr hdiff
    constructor
    · rw [dragGesture_eq m b0 b1 cardIds hflag, hch]
      simp
    · obtain ⟨kept, pre, suf, hsplit, hsh⟩ :=
        saveState_shape m b1 (dragOpTag cardIds) hflag hM
      refine ⟨kept, pre, suf, hsplit, ?_⟩
      rw [dragGesture_eq m b0 b1 cardIds hflag, hch]
      simpa using hsh
  · intro hsame
    have hch : dragChanged b0 b1 cardIds = false := by
      rw [← Bool.not_eq_true]
      intro hc
      obtain ⟨i, hi, hne⟩ := (dragChanged_iff b0 b1 cardIds hpres).mp hc
      exact hne (hsame i hi)
    rw [dragGesture_eq m b0 b1 cardIds hflag, hch]
    simp

/-- Witness for C7: dragging the first sample card from `(0, 0)` to
`(5, 0)` finishes as exactly one `card_move` save on the end board. -/
theorem drag_gesture_single_history_entry_witness :
    dragGesture freshManager twoCardBoard twoCardBoardMoved [1]
      = { saveState freshManager twoCardBoardMoved (dragOpTag [1])
          with pendingDragOperation := none } :=
  ((drag_gesture_single_history_entry freshManager twoCardBoard twoCardBoardMoved [1]
      rfl (by norm_num [freshManager]) (by decide)).2.1 (by decide)).1

theorem foldl_createCardData_cards (cs : List Card) (b : Board) :
    (cs.foldl createCardData b).cards = b.cards ++ cs := by
  induction cs generalizing b with
  | nil => simp
  | cons c rest ih =>
      rw [List.foldl_cons, ih]
      simp [createCardData]

theorem matches_capture_self (b : Board) : MatchesSnapshot b (captureCurrentState b) := by
  rw [captureCurrentState_eq]
  exact ⟨fun i => rfl, rfl, rfl⟩

theorem capture_wf (b : Board) (h : b.ActiveWF) :
    ∀ a, (captureCurrentState b).activeCard = some a →
      ((captureCurrentState b).cards.any (fun c => c.id == a)) = true := by
  rw [captureCurrentState_eq]
  exact h

theorem applyState_cards (b : Board) (s : Snapshot) :
    (applyState b s).cards = s.cards := by
  cases hac : s.activeCard with
  | none => simp [applyState, hac, foldl_createCardData_cards]
  | some a =>
      simp only [applyState, hac]
      split <;> simp [foldl_createCardData_cards]

theorem applyState_selected (b : Board) (s : Snapshot) :
    (applyState b s).selectedCards = s.selectedCards := by
  cases hac : s.activeCard with
  | none => simp [applyState, hac]
  | some a =>
      simp only [applyState, hac]
      split <;> rfl

theorem applyState_active (b : Board) (s : Snapshot)
    (hwf : ∀ a, s.activeCard = some a → (s.cards.any (fun c => c.id == a)) = true) :
    (applyState b s).activeCard = s.activeCard := by
  cases hac : s.activeCard with
  | none => simp [applyState, hac]
  | some a =>
      simp only [applyState, hac]
      split
      · rfl
      · rename_i hfalse
        exfalso
        apply hfalse
        unfold Board.hasCard
        dsimp only
        rw [foldl_createCardData_cards]
        simpa using hwf a hac

theorem applyState_matches (b : Board) (s : Snapshot)
    (hwf : ∀ a, s.activeCard = some a → (s.cards.any (fun c => c.id == a)) = true) :
    MatchesSnapshot (applyState b s) s := by
  refine ⟨?_, applyState_selected b s, applyState_active b s hwf⟩
  intro i
  unfold Board.findCard
  rw [applyState_cards]

theorem saveSeq_spec (saves : List (String × Board)) (m : UndoRedoManager)
    (hflag : m.isPerformingUndoRedo = false)
    (hidx : m.currentIndex = (m.history.length : ℤ) - 1)
    (hlen : m.history.length + saves.length ≤ m.maxHistorySize) :
    saveSeq m saves = { m with
      history := m.history ++ saves.map (fun p => ⟨p.1, captureCurrentState p.2⟩),
      currentIndex := (m.history.length : ℤ) + saves.length - 1 } := by
  induction saves generalizing m with
  | nil =>
      simp only [saveSeq, List.foldl_nil, List.map_nil, List.append_nil, List.length_nil,
        Nat.cast_zero, add_zero, ← hidx]
  | cons p rest ih =>
      unfold saveSeq at ih ⊢
      rw [List.foldl_cons]
      have hcap1 : m.history.length + 1 ≤ m.maxHistorySize := by
        simp only [List.length_cons] at hlen
        omega
      rw [saveState_at_end m p.2 p.1 hflag hidx hcap1]
      set m2 : UndoRedoManager := { m with
        history := m.history ++ [⟨p.1, captureCurrentState p.2⟩]
        currentIndex := m.currentIndex + 1 } with hm2
      have h1 : m2.isPerformingUndoRedo = false := hflag
      have hlen2 : m2.history.length = m.history.length + 1 := by
        rw [hm2]
        simp
      have h2 : m2.currentIndex = (m2.history.length : ℤ) - 1 := by
        rw [hlen2]
        rw [show m2.currentIndex = m.currentIndex + 1 from by rw [hm2]]
        push_cast
        omega
      have h3 : m2.history.length + rest.length ≤ m2.maxHistorySize := by
        rw [hlen2]
        rw [show m2.maxHistorySize = m.maxHistorySize from by rw [hm2]]
        simp only [List.length_cons] at hlen
        omega
      rw [ih m2 h1 h2 h3]
      rw [show m2.history = m.history ++ [⟨p.1, captureCurrentState p.2⟩] from by rw [hm2]]
      rw [hlen2, hm2]
      congr 1
      · simp
      · simp only [List.length_cons]
        push_cast
        ring

theorem undoIter_spec (n : ℕ) (m : UndoRedoManager) (b : Board)
    (hflag : m.isPerformingUndoRedo = false)
    (hn : (n : ℤ) ≤ m.currentIndex) :
    (undoIter n m b).1
      = { m with currentIndex := m.currentIndex - n, isPerformingUndoRedo := false } ∧
    (undoIter n m b).2.2 = true := by
  induction n generalizing m b with
  | zero =>
      constructor
      · show m = _
        rw [← hflag]
        simp
      · rfl
  | succ k ih =>
      have hc : m.canUndo = true := by
        simp only [UndoRedoManager.canUndo]
        rw [decide_eq_true_iff]
        push_cast at hn
        omega
      have hu1 : (undo m b).1
          = { m with currentIndex := m.currentIndex - 1, isPerformingUndoRedo := false } := by
        rw [undo_manager, if_pos hc]
      have hu3 : (undo m b).2.2 = true := by
        unfold undo
        rw [if_pos hc]
      obtain ⟨ih1, ih2⟩ := ih (undo m b).1 (undo m b).2.1
        (by rw [hu1]) (by rw [hu1]; dsimp only; push_cast at hn ⊢; omega)
      simp only [undoIter]
      constructor
      · rw [ih1, hu1]
        congr 1
        push_cast
        ring
      · rw [hu3, ih2]
        rfl

theorem redoIter_spec (n : ℕ) (m : UndoRedoManager) (b : Board)
    (hflag : m.isPerformingUndoRedo = false)
    (hn : m.currentIndex + n ≤ (m.history.length : ℤ) - 1) :
    (redoIter n m b).1
      = { m with currentIndex := m.currentIndex + n, isPerformingUndoRedo := false } ∧
    (redoIter n m b).2.2 = true ∧
    (n = 0 → (redoIter n m b).2.1 = b) ∧
    (0 < n → ∃ b2, (redoIter n m b).2.1
        = applyState b2
            ((m.history.getD (m.currentIndex + n).toNat defaultEntry).state)) := by
  induction n generalizing m b with
  | zero =>
      refine ⟨?_, rfl, fun _ => rfl, fun h => absurd h (by omega)⟩
      show m = _
      rw [← hflag]
      simp
  | succ k ih =>
      have hc : m.canRedo = true := by
        simp only [UndoRedoManager.canRedo]
        rw [decide_eq_true_iff]
        push_cast at hn
        omega
      have hr1 : (redo m b).1
          = { m with currentIndex := m.currentIndex + 1, isPerformingUndoRedo := false } := by
        rw [redo_manager, if_pos hc]
      have hr21 : (redo m b).2.1
          = applyState b ((m.history.getD (m.currentIndex + 1).toNat defaultEntry).state) := by
        unfold redo
        rw [if_pos hc]
      have hr3 : (redo m b).2.2 = true := by
        unfold redo
        rw [if_pos hc]
      obtain ⟨ih1, ih2, ih3, ih4⟩ := ih (redo m b).1 (redo m b).2.1
        (by rw [hr1]) (by rw [hr1]; dsimp only; push_cast at hn ⊢; omega)
      simp only [redoIter]
      refine ⟨?_, ?_, ?_, ?_⟩
      · rw [ih1, hr1]
        congr 1
        push_cast
        ring
      · rw [hr3, ih2]
        rfl
      · intro h
        exact absurd h (by omega)
      · intro _
        rcases Nat.eq_zero_or_pos k with hk | hk
        · subst hk
          refine ⟨b, ?_⟩
          rw [ih3 rfl, hr21]
          norm_num
        · obtain ⟨b2, hb2⟩ := ih4 hk
          refine ⟨b2, ?_⟩
          rw [hb2, hr1]
          dsimp only
          have harg : m.currentIndex + 1 + (k : ℤ) = m.currentIndex + ((k + 1 : ℕ) : ℤ) := by
            push_cast
            ring
          rw [harg]

set_option maxRecDepth 40000 in
/-- C1 counterexample: the claim as stated fails for N = 51: after 51
saves on a fresh manager the capacity of 50 has evicted the oldest
entry, so performing N - 1 = 50 undos fails at the 50th step. -/
theorem undo_redo_roundtrip_counterexample :
    (undoIter 50 (saveSeq freshManager (List.replicate 51 ("op", emptyBoard)))
        emptyBoard).2.2 = false := by decide

/-- C1 amended: for every sequence of `N` `saveState` calls on a fresh
manager with `N` within the history capacity (`N ≤ 50`), undoing
`N - 1` times and then redoing `N - 1` times succeeds at every step,
and the final board matches the snapshot captured by the `N`-th save:
every card looked up by id has equal fields, and the selected-id list
and the active id agree.  Beyond the capacity the oldest entries are
evicted and the undos run out, as the counterexample shows. -/
theorem undo_redo_roundtrip_amended
    (saves : List (String × Board)) (pN : String × Board)
    (hlast : saves.getLast? = some pN)
    (hcap : saves.length ≤ freshManager.maxHistorySize)
    (hwf : pN.2.ActiveWF) :
    (undoIter (saves.length - 1) (saveSeq freshManager saves) pN.2).2.2 = true ∧
    (redoIter (saves.length - 1)
        (undoIter (saves.length - 1) (saveSeq freshManager saves) pN.2).1
        (undoIter (saves.length - 1) (saveSeq freshManager saves) pN.2).2.1).2.2 = true ∧
    MatchesSnapshot
      (redoIter (saves.length - 1)
          (undoIter (saves.length - 1) (saveSeq freshManager saves) pN.2).1
          (undoIter (saves.length - 1) (saveSeq freshManager saves) pN.2).2.1).2.1
      (captureCurrentState pN.2) := by
  have hne : saves ≠ [] := by
    intro h
    rw [h] at hlast
    cases hlast
  have hN : 1 ≤ saves.length := List.length_pos.mpr hne
  have hM := saveSeq_spec saves freshManager rfl (by norm_num [freshManager])
    (by simpa [freshManager] using hcap)
  have hflagM : (saveSeq freshManager saves).isPerformingUndoRedo = false := by
    rw [hM]
    rfl
  have hhist : (saveSeq freshManager saves).history
      = saves.map (fun p => ⟨p.1, captureCurrentState p.2⟩) := by
    rw [hM]
    simp [freshManager]
  have hidxM : (saveSeq freshManager saves).currentIndex = (saves.length : ℤ) - 1 := by
    rw [hM]
    simp [freshManager]
  obtain ⟨hu1, hu2⟩ := undoIter_spec (saves.length - 1) (saveSeq freshManager saves) pN.2
    hflagM (by rw [hidxM]; omega)
  have hflagU : (undoIter (saves.length - 1) (saveSeq freshManager saves) pN.2).1.isPerformingUndoRedo
      = false := by
    rw [hu1]
  have hhistU : (undoIter (saves.length - 1) (saveSeq freshManager saves) pN.2).1.history
      = saves.map (fun p => ⟨p.1, captureCurrentState p.2⟩) := by
    rw [hu1]
    exact hhist
  have hidxU : (undoIter (saves.length - 1) (saveSeq freshManager saves) pN.2).1.currentIndex
      = 0 := by
    rw [hu1]
    dsimp only
    rw [hidxM]
    omega
  obtain ⟨hr1, hr2, hr3, hr4⟩ := redoIter_spec (saves.length - 1)
    (undoIter (saves.length - 1) (saveSeq freshManager saves) pN.2).1
    (undoIter (saves.length - 1) (saveSeq freshManager saves) pN.2).2.1
    hflagU
    (by rw [hidxU, hhistU]; simp only [List.length_map]; omega)
  refine ⟨hu2, hr2, ?_⟩
  by_cases hN1 : saves.length - 1 = 0
  · have hboard : (redoIter (saves.length - 1)
        (undoIter (saves.length - 1) (saveSeq freshManager saves) pN.2).1
        (undoIter (saves.length - 1) (saveSeq freshManager saves) pN.2).2.1).2.1
        = (undoIter (saves.length - 1) (saveSeq freshManager saves) pN.2).2.1 := hr3 hN1
    rw [hboard, hN1]
    exact matches_capture_self pN.2
  · obtain ⟨b2, hb2⟩ := hr4 (Nat.pos_of_ne_zero hN1)
    rw [hb2]
    have hidxArg : ((undoIter (saves.length - 1) (saveSeq freshManager saves) pN.2).1.currentIndex
        + ((saves.length - 1 : ℕ) : ℤ)).toNat = saves.length - 1 := by
      rw [hidxU]
      omega
    rw [hidxArg, hhistU]
    have hentry : (saves.map
        (fun p => (⟨p.1, captureCurrentState p.2⟩ : HistoryEntry))).getD
          (saves.length - 1) defaultEntry
        = ⟨pN.1, captureCurrentState pN.2⟩ := by
      rw [List.getD_eq_getElem?_getD, List.getElem?_map]
      rw [List.getLast?_eq_getElem?] at hlast
      rw [hlast]
      rfl
    rw [hentry]
    exact applyState_matches b2 (captureCurrentState pN.2) (capture_wf pN.2 hwf)

/-- Witness for C1 amended at N = 2: two saves, one undo, one redo. -/
theorem undo_redo_roundtrip_amended_witness :
    MatchesSnapshot
      (redoIter ([("a", emptyBoard), ("b", twoCardBoard)].length - 1)
          (undoIter ([("a", emptyBoard), ("b", twoCardBoard)].length - 1)
            (saveSeq freshManager [("a", emptyBoard), ("b", twoCardBoard)])
            twoCardBoard).1
          (undoIter ([("a", emptyBoard), ("b", twoCardBoard)].length - 1)
            (saveSeq freshManager [("a", emptyBoard), ("b", twoCardBoard)])
            twoCardBoard).2.1).2.1
      (captureCurrentState twoCardBoard) :=
  (undo_redo_roundtrip_amended [("a", emptyBoard), ("b", twoCardBoard)]
    ("b", twoCardBoard) rfl (by norm_num [freshManager])
    (by intro a ha; cases ha; decide)).2.2

end CardWorld
